import Mathlib

/-! Verification of kafkiansky/itertools: push iterators with explicit consumer state.

Go's `iter.Seq[T]` is `func(yield func(T) bool)`: a producer is handed a
consumer callback, calls it once per value and must stop as soon as the
callback answers `false`.  The callback is a closure over the mutable
variables of the consuming loop.  Here these variables are threaded
explicitly: a callback maps a value and the current consumer state to
the next consumer state and the "continue" answer.

`for v := range seq { body }` is `seq(yield)` where `yield` runs `body`
and answers `true` when the body reaches its end and `false` when the
body leaves the loop (`return`).  A `return` inside the body is recorded
in the consumer state, so that the code after the loop can tell whether
the enclosing function has already returned.

Slices are lists, the zero value of `T` is `default`, `uint` is a
natural number modulo `2^64` and `int` an integer wrapped to 64 bits.
A map is the list of its entries in the order in which it is iterated,
a string is the list of its code points, and an `error` is an optional
value with `none` for `nil`.
-/

namespace itertools

/-- The consumer callback `yield func(T) bool` over consumer state `σ`. -/
abbrev Yield (T σ : Type) : Type := T → σ → σ × Bool

/-- The producer type `iter.Seq[T]`, that is `func(yield func(T) bool)`. -/
abbrev Seq (T : Type) : Type 1 := (σ : Type) → Yield T σ → σ → σ

/-- Body of the loop of `CollectSlice`: `s = append(s, v)`. -/
def CollectSlice.body {T : Type} : Yield T (List T) :=
  fun v s => (s ++ [v], true)

/-- `CollectSlice` of `iter.go`: starts from the nil slice and appends
every produced value. -/
def CollectSlice {T : Type} (seq : Seq T) : List T :=
  seq (List T) CollectSlice.body []

/-- The pair consumer callback `yield func(K, V) bool` over consumer state `σ`. -/
abbrev Yield2 (K V σ : Type) : Type := K → V → σ → σ × Bool

/-- The producer type `iter.Seq2[K, V]`, that is `func(yield func(K, V) bool)`. -/
abbrev Seq2 (K V : Type) : Type 1 := (σ : Type) → Yield2 K V σ → σ → σ

/-- A Go `map[K]V`: its entries, in the order in which this map happens to
be iterated.  A well-formed map has no two entries with the same key. -/
abbrev GoMap (K V : Type) : Type := List (K × V)

/-- Map lookup `m[k]`, with `none` for an absent key. -/
def GoMap.get {K V : Type} [DecidableEq K] : GoMap K V → K → Option V
  | [], _ => none
  | (k1, v1) :: rest, k => if k1 = k then some v1 else GoMap.get rest k

/-- Map assignment `m[k] = v`: replaces the value of an existing key,
adds the entry otherwise. -/
def GoMap.set {K V : Type} [DecidableEq K] : GoMap K V → K → V → GoMap K V
  | [], k, v => [(k, v)]
  | (k1, v1) :: rest, k, v =>
      if k1 = k then (k, v) :: rest else (k1, v1) :: GoMap.set rest k v

/-- The keys of a map, in iteration order. -/
def GoMap.keys {K V : Type} (m : GoMap K V) : List K := m.map Prod.fst

/-- Body of the loop of `CollectMap`: `m[k] = v`. -/
def CollectMap.body {K V : Type} [DecidableEq K] : Yield2 K V (GoMap K V) :=
  fun k v m => (GoMap.set m k v, true)

/-- `CollectMap` of `iter.go`: starts from `make(map[K]V)` and assigns
every produced pair. -/
def CollectMap {K V : Type} [DecidableEq K] (seq : Seq2 K V) : GoMap K V :=
  seq (GoMap K V) CollectMap.body []

namespace iterslice

/-- The slice loop of `Iterator`: `for i := range s { if !yield(s[i]) { return } }`. -/
def Iterator.loop {T σ : Type} (yield : Yield T σ) : List T → σ → σ
  | [], st => st
  | x :: rest, st =>
      if (yield x st).2 then Iterator.loop yield rest (yield x st).1
      else (yield x st).1

/-- `Iterator` of `iterslice/iter.go`. -/
def Iterator {T : Type} (s : List T) : Seq T :=
  fun _ yield st => Iterator.loop yield s st

/-- Body of the loop of `Filter`: `if f(v) { if !yield(v) { return } }`. -/
def Filter.body {T σ : Type} (f : T → Bool) (yield : Yield T σ) : Yield T σ :=
  fun v st => if f v then yield v st else (st, true)

/-- `Filter` of `iterslice/iter.go`. -/
def Filter {T : Type} (seq : Seq T) (f : T → Bool) : Seq T :=
  fun σ yield st => seq σ (Filter.body f yield) st

/-- Body of the loop of `Map`: `if !yield(f(v)) { return }`. -/
def Map.body {T E σ : Type} (f : T → E) (yield : Yield E σ) : Yield T σ :=
  fun v st => yield (f v) st

/-- `Map` of `iterslice/iter.go`. -/
def Map {T E : Type} (seq : Seq T) (f : T → E) : Seq E :=
  fun σ yield st => seq σ (Map.body f yield) st

/-- Body of the inner loop of `Join`: `if !yield(v) { return }`.  The
second component of the state records that the closure has returned. -/
def Join.body {T σ : Type} (yield : Yield T σ) : Yield T (σ × Bool) :=
  fun v st => (((yield v st.1).1, !(yield v st.1).2), (yield v st.1).2)

/-- The outer loop of `Join`: `for iterIdx := range iters { ... }`. -/
def Join.loop {T σ : Type} (yield : Yield T σ) : List (Seq T) → σ → σ
  | [], st => st
  | it :: rest, st =>
      if (it (σ × Bool) (Join.body yield) (st, false)).2
      then (it (σ × Bool) (Join.body yield) (st, false)).1
      else Join.loop yield rest (it (σ × Bool) (Join.body yield) (st, false)).1

/-- `Join` of `iterslice/iter.go`. -/
def Join {T : Type} (iters : List (Seq T)) : Seq T :=
  fun _ yield st => Join.loop yield iters st

/-- Body of the loop of `Nth`: `if i == n { return v, true }; i++`.  The
state is the `uint` counter `i` and the value returned from inside the
loop, if any. -/
def Nth.body {T : Type} (n : Nat) : Yield T (Nat × Option T) :=
  fun v st =>
    if st.1 = n then ((st.1, some v), false)
    else (((st.1 + 1) % 2 ^ 64, st.2), true)

/-- `Nth` of `iterslice/iter.go`: `i := uint(1)`, the loop, and
`return *new(T), false` when the loop ends without returning. -/
def Nth {T : Type} [Inhabited T] (seq : Seq T) (n : Nat) : T × Bool :=
  match (seq (Nat × Option T) (Nth.body n) (1, none)).2 with
  | some v => (v, true)
  | none => (default, false)

/-- `First` of `iterslice/iter.go`: `return Nth(seq, 1)`. -/
def First {T : Type} [Inhabited T] (seq : Seq T) : T × Bool :=
  Nth seq 1

/-- Body of the loop of `Reduce`: `acc = a(acc, v)`. -/
def Reduce.body {T : Type} (a : T → T → T) : Yield T T :=
  fun v acc => (a acc v, true)

/-- `Reduce` of `iterslice/iter.go`; `initial` is the variadic argument,
of which only `initial[0]` is read. -/
def Reduce {T : Type} [Inhabited T] (seq : Seq T) (a : T → T → T) (initial : List T) : T :=
  seq T (Reduce.body a)
    (match initial with
     | i0 :: _ => i0
     | [] => default)

/-- Body of the loop of `Partition`: append to `l` when `f(v)`, to `r` otherwise. -/
def Partition.body {T : Type} (f : T → Bool) : Yield T (List T × List T) :=
  fun v st => if f v then ((st.1 ++ [v], st.2), true) else ((st.1, st.2 ++ [v]), true)

/-- `Partition` of `iterslice/iter.go`: `return Iterator(l), Iterator(r)`. -/
def Partition {T : Type} (seq : Seq T) (f : T → Bool) : Seq T × Seq T :=
  (Iterator (seq (List T × List T) (Partition.body f) ([], [])).1,
   Iterator (seq (List T × List T) (Partition.body f) ([], [])).2)

/-- Two's complement wrap-around of a 64-bit `int`. -/
def wrapInt (x : Int) : Int := (x + 2 ^ 63) % 2 ^ 64 - 2 ^ 63

/-- Body of the loop of `Position`: `if v == i { return idx, true }; idx++`.
The state is the `int` counter `idx` and the index returned from inside
the loop, if any. -/
def Position.body {T : Type} [DecidableEq T] (i : T) : Yield T (Int × Option Int) :=
  fun v st =>
    if v = i then ((st.1, some st.1), false)
    else ((wrapInt (st.1 + 1), st.2), true)

/-- `Position` of `iterslice/iter.go`: `var idx int`, the loop, and
`return 0, false` when the loop ends without returning. -/
def Position {T : Type} [DecidableEq T] (seq : Seq T) (i : T) : Int × Bool :=
  match (seq (Int × Option Int) (Position.body i) (0, none)).2 with
  | some idx => (idx, true)
  | none => (0, false)

/-- Body of the loop of `Max`:
`if !init { max = v; init = true } else if v > max { max = v }`. -/
def Max.body {T : Type} [LinearOrder T] : Yield T (T × Bool) :=
  fun v st =>
    if !st.2 then ((v, true), true)
    else if v > st.1 then ((v, st.2), true)
    else (st, true)

/-- `Max` of `iterslice/iter.go`: `var max T; var init bool`, the loop, `return max`. -/
def Max {T : Type} [LinearOrder T] [Inhabited T] (seq : Seq T) : T :=
  (seq (T × Bool) Max.body (default, false)).1

/-- Body of the loop of `Min`:
`if !init { min = v; init = true } else if v < min { min = v }`. -/
def Min.body {T : Type} [LinearOrder T] : Yield T (T × Bool) :=
  fun v st =>
    if !st.2 then ((v, true), true)
    else if v < st.1 then ((v, st.2), true)
    else (st, true)

/-- `Min` of `iterslice/iter.go`: `var min T; var init bool`, the loop, `return min`. -/
def Min {T : Type} [LinearOrder T] [Inhabited T] (seq : Seq T) : T :=
  (seq (T × Bool) Min.body (default, false)).1

/-- Body of the loop of `TryMap`: `if !yield(f(v)) { return }`, where `f`
returns a result and an `error` (`none` is the nil error). -/
def TryMap.body {T E Er σ : Type} (f : T → E × Option Er) (yield : Yield2 E (Option Er) σ) :
    Yield T σ :=
  fun v st => yield (f v).1 (f v).2 st

/-- `TryMap` of `iterslice/iter.go`. -/
def TryMap {T E Er : Type} (seq : Seq T) (f : T → E × Option Er) : Seq2 E (Option Er) :=
  fun σ yield st => seq σ (TryMap.body f yield) st

/-- Body of the loop of `Last`: `l = v; found = true`. -/
def Last.body {T : Type} : Yield T (T × Bool) :=
  fun v _ => ((v, true), true)

/-- `Last` of `iterslice/iter.go`: `var l T; var found bool`, the loop,
`return l, found`. -/
def Last {T : Type} [Inhabited T] (seq : Seq T) : T × Bool :=
  seq (T × Bool) Last.body (default, false)

/-- The loop of `Range`, `for v := range n { if !yield(v) { return } }`:
the number of iterations left and the next value of `v`. -/
def Range.loop {σ : Type} (yield : Yield Int σ) : Nat → Int → σ → σ
  | 0, _, st => st
  | left + 1, v, st =>
      if (yield v st).2 then Range.loop yield left (v + 1) (yield v st).1
      else (yield v st).1

/-- `Range` of `iterslice/iter.go`: a range over the integer `n` runs
`n` times from `0`, and not at all when `n ≤ 0`. -/
def Range (n : Int) : Seq Int :=
  fun _ yield st => Range.loop yield n.toNat 0 st

/-- The loop of `Between`, `for i := l; i < r; i++ { if !yield(i) { return } }`,
with a bound on the number of iterations as first argument. -/
def Between.loop {σ : Type} (yield : Yield Int σ) (r : Int) : Nat → Int → σ → σ
  | 0, _, st => st
  | fuel + 1, i, st =>
      if i < r then
        if (yield i st).2 then Between.loop yield r fuel (wrapInt (i + 1)) (yield i st).1
        else (yield i st).1
      else st

/-- `Between` of `iterslice/iter.go`.  The loop is given `r - l` iterations,
which is as many as it can make (`Between.loop_fuel`). -/
def Between (l r : Int) : Seq Int :=
  fun _ yield st => Between.loop yield r (r - l).toNat l st

/-- The loop of `Chars`, `for _, v := range s { if !yield(string(v)) { return } }`:
a range over a string runs once per code point `v`, and `string(v)` is the
string of that one code point. -/
def Chars.loop {σ : Type} (yield : Yield String σ) : List Char → σ → σ
  | [], st => st
  | v :: rest, st =>
      if (yield (String.singleton v) st).2
      then Chars.loop yield rest (yield (String.singleton v) st).1
      else (yield (String.singleton v) st).1

/-- `Chars` of `iterslice/iter.go`; a (valid UTF-8) string is the list of
its code points. -/
def Chars (s : String) : Seq String :=
  fun _ yield st => Chars.loop yield s.data st

/-- An observing pair consumer: it records every pair it is called with
and never answers `false`. -/
def recordPairs {K V : Type} : Yield2 K V (List (K × V)) :=
  fun k v tr => (tr ++ [(k, v)], true)

/-- A producer behaves as the finite sequence `l`: against every consumer
it calls the callback with the elements of `l`, in order, up to and
including the first one on which the callback answers `false`. -/
def Produces {T : Type} (seq : Seq T) (l : List T) : Prop :=
  ∀ (σ : Type) (yield : Yield T σ) (st : σ), seq σ yield st = Iterator.loop yield l st

/-- An observing consumer: it records every value it is called with and
answers `false` on its `k`-th invocation only. -/
def stopAt {T : Type} (k : Nat) : Yield T (List T) :=
  fun v tr => (tr ++ [v], decide (tr.length + 1 ≠ k))

/-- An observing wrapper: it runs the callback `yield` unchanged and
counts its invocations in an extra component of the state. -/
def counting {T σ : Type} (yield : Yield T σ) : Yield T (σ × Nat) :=
  fun v st => (((yield v st.1).1, st.2 + 1), (yield v st.1).2)

end iterslice

namespace itermap

/-- The map loop of `Iterator`: `for k, v := range m { if !yield(k, v) { return } }`. -/
def Iterator.loop {K V σ : Type} (yield : Yield2 K V σ) : GoMap K V → σ → σ
  | [], st => st
  | (k, v) :: rest, st =>
      if (yield k v st).2 then Iterator.loop yield rest (yield k v st).1
      else (yield k v st).1

/-- `Iterator` of `itermap/iter.go`. -/
def Iterator {K V : Type} (m : GoMap K V) : Seq2 K V :=
  fun _ yield st => Iterator.loop yield m st

/-- Body of the inner loop of `Join`: `if !yield(k, v) { return }`.  The
second component of the state records that the closure has returned. -/
def Join.body {K V σ : Type} (yield : Yield2 K V σ) : Yield2 K V (σ × Bool) :=
  fun k v st => (((yield k v st.1).1, !(yield k v st.1).2), (yield k v st.1).2)

/-- The outer loop of `Join`: `for iterIdx := range iters { ... }`. -/
def Join.loop {K V σ : Type} (yield : Yield2 K V σ) : List (Seq2 K V) → σ → σ
  | [], st => st
  | it :: rest, st =>
      if (it (σ × Bool) (Join.body yield) (st, false)).2
      then (it (σ × Bool) (Join.body yield) (st, false)).1
      else Join.loop yield rest (it (σ × Bool) (Join.body yield) (st, false)).1

/-- `Join` of `itermap/iter.go`. -/
def Join {K V : Type} (iters : List (Seq2 K V)) : Seq2 K V :=
  fun _ yield st => Join.loop yield iters st

end itermap

namespace iterslice

/-! ## The producers of the library and the sequences they produce -/

theorem Iterator.loop_nil {T σ : Type} (yield : Yield T σ) (st : σ) :
    Iterator.loop yield [] st = st := rfl

theorem Iterator.loop_cons {T σ : Type} (yield : Yield T σ) (x : T) (rest : List T) (st : σ) :
    Iterator.loop yield (x :: rest) st =
      if (yield x st).2 then Iterator.loop yield rest (yield x st).1 else (yield x st).1 := rfl

theorem produces_Iterator {T : Type} (s : List T) : Produces (Iterator s) s :=
  fun _ _ _ => rfl

/-- A callback that never stops sees the whole list: the loop is a left fold. -/
theorem Iterator.loop_of_continue {T σ : Type} (yield : Yield T σ)
    (hc : ∀ v st, (yield v st).2 = true) (l : List T) (st : σ) :
    Iterator.loop yield l st = l.foldl (fun s v => (yield v s).1) st := by
  induction l generalizing st with
  | nil => rfl
  | cons x rest ih => simp [Iterator.loop_cons, hc, ih]

theorem Iterator.loop_collect {T : Type} (l acc : List T) :
    Iterator.loop CollectSlice.body l acc = acc ++ l := by
  induction l generalizing acc with
  | nil => simp [Iterator.loop_nil]
  | cons x rest ih => simp [Iterator.loop_cons, CollectSlice.body, ih]

theorem collect_of_produces {T : Type} {seq : Seq T} {l : List T} (h : Produces seq l) :
    CollectSlice seq = l := by
  unfold CollectSlice
  rw [h, Iterator.loop_collect]; rfl

theorem Iterator.loop_map {T E σ : Type} (f : T → E) (yield : Yield E σ) (l : List T) (st : σ) :
    Iterator.loop (Map.body f yield) l st = Iterator.loop yield (l.map f) st := by
  induction l generalizing st with
  | nil => rfl
  | cons x rest ih => simp [Iterator.loop_cons, Map.body, ih]

theorem Iterator.loop_filter {T σ : Type} (f : T → Bool) (yield : Yield T σ) (l : List T)
    (st : σ) :
    Iterator.loop (Filter.body f yield) l st = Iterator.loop yield (l.filter f) st := by
  induction l generalizing st with
  | nil => rfl
  | cons x rest ih =>
    cases hf : f x <;> simp [Iterator.loop_cons, Filter.body, hf, ih, List.filter_cons]

theorem produces_Map {T E : Type} {seq : Seq T} {l : List T} (h : Produces seq l) (f : T → E) :
    Produces (Map seq f) (l.map f) := by
  intro σ yield st
  show seq σ (Map.body f yield) st = _
  rw [h, Iterator.loop_map]

theorem produces_Filter {T : Type} {seq : Seq T} {l : List T} (h : Produces seq l)
    (f : T → Bool) : Produces (Filter seq f) (l.filter f) := by
  intro σ yield st
  show seq σ (Filter.body f yield) st = _
  rw [h, Iterator.loop_filter]

/-- Running a list against the inner body of `Join` and then, unless the
body has returned, running a second list is running their concatenation. -/
theorem Iterator.loop_append {T σ : Type} (yield : Yield T σ) (l₁ l₂ : List T) (st : σ) :
    Iterator.loop yield (l₁ ++ l₂) st =
      if (Iterator.loop (Join.body yield) l₁ (st, false)).2
      then (Iterator.loop (Join.body yield) l₁ (st, false)).1
      else Iterator.loop yield l₂ (Iterator.loop (Join.body yield) l₁ (st, false)).1 := by
  induction l₁ generalizing st with
  | nil => simp [Iterator.loop_nil]
  | cons x rest ih =>
    cases hy : (yield x st).2
    · simp [Iterator.loop_cons, Join.body, hy, Iterator.loop_nil]
    · simp [Iterator.loop_cons, Join.body, hy, ih]

theorem Join.loop_of_produces {T σ : Type} (yield : Yield T σ) (ps : List (Seq T))
    (ls : List (List T)) (h : List.Forall₂ Produces ps ls) (st : σ) :
    Join.loop yield ps st = Iterator.loop yield ls.flatten st := by
  induction h generalizing st with
  | nil => rfl
  | cons hp _ ih =>
    rw [List.flatten_cons, Iterator.loop_append, Join.loop, hp]
    split
    · rfl
    · exact ih _

theorem produces_Join {T : Type} {ps : List (Seq T)} {ls : List (List T)}
    (h : List.Forall₂ Produces ps ls) : Produces (Join ps) ls.flatten :=
  fun _ yield st => Join.loop_of_produces yield ps ls h st

theorem forall₂_produces_map_Iterator {T : Type} (ls : List (List T)) :
    List.Forall₂ Produces (ls.map Iterator) ls := by
  induction ls with
  | nil => exact List.Forall₂.nil
  | cons l rest ih => exact List.Forall₂.cons (produces_Iterator l) ih

theorem Iterator.loop_stopAt {T : Type} (k : Nat) (l tr : List T) (h : tr.length < k) :
    Iterator.loop (stopAt k) l tr = tr ++ l.take (k - tr.length) := by
  induction l generalizing tr with
  | nil => simp [Iterator.loop_nil]
  | cons x rest ih =>
    by_cases hk : tr.length + 1 = k
    · have h1 : k - tr.length = 1 := by omega
      simp [Iterator.loop_cons, stopAt, hk, h1]
    · have h2 : (tr ++ [x]).length < k := by simp; omega
      have h3 : k - tr.length = (k - (tr ++ [x]).length) + 1 := by simp; omega
      simp only [Iterator.loop_cons, stopAt, hk, ne_eq, not_false_eq_true, decide_True,
        if_true]
      rw [ih _ h2, h3, List.take_succ_cons]
      simp

/-- The count kept by `counting` against a callback that never stops. -/
theorem Iterator.loop_counting_continue {T σ : Type} (yield : Yield T σ)
    (hc : ∀ v st, (yield v st).2 = true) (l : List T) (st : σ) (c : Nat) :
    (Iterator.loop (counting yield) l (st, c)).2 = c + l.length := by
  induction l generalizing st c with
  | nil => simp [Iterator.loop_nil]
  | cons x rest ih =>
    simp only [Iterator.loop_cons, counting, hc, if_true, ih, List.length_cons]
    omega

/-- The wrapper `counting` does not change what the callback computes. -/
theorem Iterator.loop_counting_fst {T σ : Type} (yield : Yield T σ) (l : List T) (st : σ)
    (c : Nat) :
    (Iterator.loop (counting yield) l (st, c)).1 = Iterator.loop yield l st := by
  induction l generalizing st c with
  | nil => rfl
  | cons x rest ih =>
    cases hy : (yield x st).2 <;> simp [Iterator.loop_cons, counting, hy, ih]

theorem collect_Iterator {T : Type} (l : List T) : CollectSlice (Iterator l) = l :=
  collect_of_produces (produces_Iterator l)

/-! ## Round trip, `Join` -/

/-- C1: for every slice `C`, the empty one included,
`CollectSlice(Iterator(C))` is `C`: the same elements in the same order. -/
theorem CollectSlice_Iterator {T : Type} (C : List T) :
    CollectSlice (Iterator C) = C :=
  collect_of_produces (produces_Iterator C)

/-- C2: for every list of producers `p1..pN` (`N ≥ 0`) producing the finite
sequences `l1..lN`, collecting `Join(p1, ..., pN)` yields the concatenation
`l1 ++ ... ++ lN`. -/
theorem CollectSlice_Join {T : Type} (ps : List (Seq T)) (ls : List (List T))
    (h : List.Forall₂ Produces ps ls) :
    CollectSlice (Join ps) = ls.flatten :=
  collect_of_produces (produces_Join h)

theorem CollectSlice_Join_witness :
    List.Forall₂ Produces [Iterator [(1 : Int), 2, 3], Iterator [8, 9, 10]]
        [[1, 2, 3], [8, 9, 10]] ∧
      CollectSlice (Join [Iterator [(1 : Int), 2, 3], Iterator [8, 9, 10]])
        = [1, 2, 3, 8, 9, 10] :=
  ⟨forall₂_produces_map_Iterator [[1, 2, 3], [8, 9, 10]],
   CollectSlice_Join _ _ (forall₂_produces_map_Iterator [[1, 2, 3], [8, 9, 10]])⟩

/-- C3: `Join` over slice-backed producers, run against a consumer that
signals stop on its `k`-th invocation (`1 ≤ k ≤` total number of elements),
invokes that consumer exactly `k` times, with the first `k` elements of
the concatenation, and never again. -/
theorem Join_short_circuit {T : Type} (ls : List (List T)) (k : Nat)
    (hk1 : 1 ≤ k) (hk2 : k ≤ ls.flatten.length) :
    Join (ls.map Iterator) (List T) (stopAt k) [] = ls.flatten.take k ∧
      (Join (ls.map Iterator) (List T) (stopAt k) []).length = k := by
  have h : Join (ls.map Iterator) (List T) (stopAt k) [] = ls.flatten.take k := by
    rw [produces_Join (forall₂_produces_map_Iterator ls),
      Iterator.loop_stopAt k _ [] (by simpa using hk1)]
    simp
  exact ⟨h, by rw [h, List.length_take]; omega⟩

theorem Join_short_circuit_witness :
    Join ([[(1 : Int), 2, 3], [8, 9, 10]].map Iterator) (List Int) (stopAt 2) [] = [1, 2] ∧
      (Join ([[(1 : Int), 2, 3], [8, 9, 10]].map Iterator) (List Int) (stopAt 2) []).length
        = 2 :=
  Join_short_circuit [[1, 2, 3], [8, 9, 10]] 2 (by decide) (by decide)

/-! ## `Partition` -/

theorem Iterator.loop_Partition {T : Type} (f : T → Bool) (l a b : List T) :
    Iterator.loop (Partition.body f) l (a, b) =
      (a ++ l.filter f, b ++ l.filter (fun v => !f v)) := by
  induction l generalizing a b with
  | nil => simp [Iterator.loop_nil]
  | cons x rest ih =>
    cases hf : f x <;> simp [Iterator.loop_cons, Partition.body, hf, ih]

/-- C4: for a producer of the finite sequence `s`, `Partition(s, f)` returns
`(left, right)` where `left` collects to the elements of `s` satisfying `f`
and `right` to those that do not, each in their original relative order;
hence the lengths add up to `|s|`, every element of `left` satisfies `f`,
none of `right` does, and `left` followed by `right` is a permutation of `s`. -/
theorem Partition_spec {T : Type} (seq : Seq T) (s : List T) (f : T → Bool)
    (h : Produces seq s) :
    CollectSlice (Partition seq f).1 = s.filter f ∧
      CollectSlice (Partition seq f).2 = s.filter (fun v => !f v) ∧
      (CollectSlice (Partition seq f).1).length + (CollectSlice (Partition seq f).2).length
        = s.length ∧
      (∀ x ∈ CollectSlice (Partition seq f).1, f x = true) ∧
      (∀ x ∈ CollectSlice (Partition seq f).2, f x = false) ∧
      (CollectSlice (Partition seq f).1 ++ CollectSlice (Partition seq f).2).Perm s := by
  have hl : CollectSlice (Partition seq f).1 = s.filter f := by
    simp [Partition, collect_Iterator, h _ _ _, Iterator.loop_Partition]
  have hr : CollectSlice (Partition seq f).2 = s.filter (fun v => !f v) := by
    simp [Partition, collect_Iterator, h _ _ _, Iterator.loop_Partition]
  have hperm : (s.filter f ++ s.filter (fun v => !f v)).Perm s :=
    List.filter_append_perm f s
  rw [hl, hr]
  refine ⟨rfl, rfl, ?_, ?_, ?_, hperm⟩
  · simpa using hperm.length_eq
  · intro x hx; exact (List.mem_filter.1 hx).2
  · intro x hx; simpa using (List.mem_filter.1 hx).2

theorem Partition_spec_witness :
    CollectSlice (Partition (Iterator [(1 : Int), 2, 3]) (fun v => v % 2 == 0)).1 = [2] ∧
      CollectSlice (Partition (Iterator [(1 : Int), 2, 3]) (fun v => v % 2 == 0)).2 = [1, 3] :=
  ⟨(Partition_spec (Iterator [(1 : Int), 2, 3]) [1, 2, 3] (fun v => v % 2 == 0)
      (produces_Iterator _)).1,
   (Partition_spec (Iterator [(1 : Int), 2, 3]) [1, 2, 3] (fun v => v % 2 == 0)
      (produces_Iterator _)).2.1⟩


/-! ## `Nth` and `First` -/

/-- What the loop of `Nth` returns from inside, started with the counter at
`i`, on a list short enough for the `uint` counter not to wrap. -/
theorem Iterator.loop_Nth {T : Type} (n : Nat) (l : List T) (i : Nat)
    (h : i + l.length ≤ 2 ^ 64) :
    (Iterator.loop (Nth.body n) l (i % 2 ^ 64, none)).2 =
      if i ≤ n then l[n - i]? else none := by
  induction l generalizing i with
  | nil => simp [Iterator.loop_nil]
  | cons x rest ih =>
    have hi : i % 2 ^ 64 = i := Nat.mod_eq_of_lt (by simp at h; omega)
    rw [hi, Iterator.loop_cons]
    by_cases hn : i = n
    · have hb : Nth.body n x (i, none) = ((i, some x), false) := by
        simp only [Nth.body, hn, if_true]
      rw [hb]; simp [hn]
    · have hb : Nth.body n x (i, none) = (((i + 1) % 2 ^ 64, none), true) := by
        simp only [Nth.body, hn, if_false]
      rw [hb]; simp only [if_true]
      rw [ih (i + 1) (by simp at h; omega)]
      by_cases hle : i ≤ n
      · have h1 : i + 1 ≤ n := by omega
        have h2 : n - i = (n - (i + 1)) + 1 := by omega
        simp [hle, h1, h2]
      · have h1 : ¬ i + 1 ≤ n := by omega
        simp [hle, h1]

/-- How many values the loop of `Nth` is called with. -/
theorem Iterator.loop_Nth_count {T : Type} (n : Nat) (l : List T) (i c : Nat)
    (h : i + l.length ≤ 2 ^ 64) (m : Option T) :
    (Iterator.loop (counting (Nth.body n)) l ((i % 2 ^ 64, m), c)).2 =
      c + if i ≤ n ∧ n - i < l.length then n - i + 1 else l.length := by
  induction l generalizing i c with
  | nil => simp [Iterator.loop_nil]
  | cons x rest ih =>
    have hi : i % 2 ^ 64 = i := Nat.mod_eq_of_lt (by simp at h; omega)
    rw [hi, Iterator.loop_cons]
    by_cases hn : i = n
    · have hb : counting (Nth.body n) x ((i, m), c) = (((i, some x), c + 1), false) := by
        simp only [counting, Nth.body, hn, if_true]
      rw [hb]; simp [hn]
    · have hb : counting (Nth.body n) x ((i, m), c)
          = ((((i + 1) % 2 ^ 64, m), c + 1), true) := by
        simp only [counting, Nth.body, hn, if_false]
      rw [hb]; simp only [if_true]
      rw [ih (i + 1) (c + 1) (by simp at h; omega)]
      simp only [List.length_cons]
      split <;> split <;> omega

theorem Nth_of_produces {T : Type} [Inhabited T] {seq : Seq T} {s : List T}
    (h : Produces seq s) (hlen : s.length < 2 ^ 64) (n : Nat) :
    Nth seq n =
      match (if 1 ≤ n then s[n - 1]? else none) with
      | some v => (v, true)
      | none => (default, false) := by
  unfold Nth
  rw [h]
  have := Iterator.loop_Nth n s 1 (by omega)
  rw [show (1 : Nat) % 2 ^ 64 = 1 from rfl] at this
  rw [this]

/-- C5: for a producer of the finite sequence `s` of length `m` (below
`2^64`, as the length of every slice is): if `1 ≤ n ≤ m` then `Nth(s, n)`
returns the element at 0-based index `n-1` and `true`; if `n = 0` or `n > m`
it returns the zero value and `false`.  `First(s)` is `Nth(s, 1)`: the head
and `true` for a non-empty `s`, the zero value and `false` for the empty one. -/
theorem Nth_spec {T : Type} [Inhabited T] (seq : Seq T) (s : List T) (n : Nat)
    (h : Produces seq s) (hlen : s.length < 2 ^ 64) :
    (∀ hn : n - 1 < s.length, 1 ≤ n → Nth seq n = (s[n - 1], true)) ∧
      (n = 0 ∨ s.length < n → Nth seq n = (default, false)) ∧
      First seq = Nth seq 1 ∧
      First seq = (match s with
        | [] => (default, false)
        | x :: _ => (x, true)) := by
  refine ⟨?_, ?_, rfl, ?_⟩
  · intro hn h1
    rw [Nth_of_produces h hlen, if_pos h1, List.getElem?_eq_getElem hn]
  · intro hn
    rw [Nth_of_produces h hlen]
    rcases hn with hn | hn
    · simp [hn]
    · have : s[n - 1]? = none := List.getElem?_eq_none (by omega)
      split_ifs <;> simp [this]
  · unfold First
    rw [Nth_of_produces h hlen]
    cases s <;> simp

theorem Nth_spec_witness :
    Nth (Iterator ["kafkiansky", "iterslice", "iter"]) 2 = ("iterslice", true) ∧
      Nth (Iterator ["kafkiansky", "iterslice", "iter"]) 10 = ("", false) ∧
      First (Iterator ["kafkiansky", "iterslice", "iter"]) = ("kafkiansky", true) :=
  ⟨(Nth_spec (Iterator ["kafkiansky", "iterslice", "iter"]) _ 2 (produces_Iterator _)
      (by decide)).1 (by decide) (by decide),
   (Nth_spec (Iterator ["kafkiansky", "iterslice", "iter"]) _ 10 (produces_Iterator _)
      (by decide)).2.1 (Or.inr (by decide)),
   (Nth_spec (Iterator ["kafkiansky", "iterslice", "iter"]) _ 0 (produces_Iterator _)
      (by decide)).2.2.2⟩

/-- How many values a producer of `l` hands to the body of `Filter` when
`Nth` consumes the filtered values: the shortest prefix of `l` that holds
as many accepted values as `Nth` still waits for, or all of `l`. -/
theorem Iterator.loop_Filter_Nth_count {T : Type} (p : T → Bool) (n : Nat) (l : List T)
    (i c : Nat) (m : Option T) (hin : i ≤ n) (h : i + (l.filter p).length ≤ 2 ^ 64) :
    ∃ d, (Iterator.loop (counting (Filter.body p (Nth.body n))) l ((i % 2 ^ 64, m), c)).2
          = c + d ∧
      d ≤ l.length ∧
      ((l.take d).filter p).length = min (n - i + 1) (l.filter p).length ∧
      ((l.filter p).length < n - i + 1 → d = l.length) ∧
      ∀ e, e < d → ((l.take e).filter p).length < n - i + 1 := by
  induction l generalizing i c with
  | nil =>
    exact ⟨0, by simp [Iterator.loop_nil], by simp, by simp, by simp, by simp⟩
  | cons x rest ih =>
    rw [Iterator.loop_cons]
    cases hp : p x
    · have hb : counting (Filter.body p (Nth.body n)) x ((i % 2 ^ 64, m), c)
          = (((i % 2 ^ 64, m), c + 1), true) := by
        simp only [counting, Filter.body, hp, Bool.false_eq_true, if_false]
      have hf : (x :: rest).filter p = rest.filter p := by simp [List.filter_cons, hp]
      rw [hf] at h ⊢
      rw [hb]
      simp only [if_true]
      obtain ⟨d, h1, h2, h3, h4, h5⟩ := ih i (c + 1) hin h
      refine ⟨d + 1, by rw [h1]; omega, by simp; omega, ?_, ?_, ?_⟩
      · simpa [List.take_succ_cons, List.filter_cons, hp] using h3
      · intro hlt; simp [h4 hlt]
      · intro e he
        cases e with
        | zero => simp
        | succ e =>
          simpa [List.take_succ_cons, List.filter_cons, hp] using h5 e (by omega)
    · have hf : ((x :: rest).filter p).length = (rest.filter p).length + 1 := by
        simp [List.filter_cons, hp]
      rw [hf] at h ⊢
      have hi : i % 2 ^ 64 = i := Nat.mod_eq_of_lt (by omega)
      rw [hi]
      by_cases hn : i = n
      · have hb : counting (Filter.body p (Nth.body n)) x ((i, m), c)
            = (((i, some x), c + 1), false) := by
          simp only [counting, Filter.body, Nth.body, hp, hn, if_true]
        rw [hb]
        refine ⟨1, by simp, by simp, ?_, ?_, ?_⟩
        · simp [List.filter_cons, hp, hn]
        · intro hlt; omega
        · intro e he
          have he0 : e = 0 := by omega
          simp [he0]
      · have hb : counting (Filter.body p (Nth.body n)) x ((i, m), c)
            = ((((i + 1) % 2 ^ 64, m), c + 1), true) := by
          simp only [counting, Filter.body, Nth.body, hp, hn, if_true, if_false]
        rw [hb]
        simp only [if_true]
        obtain ⟨d, h1, h2, h3, h4, h5⟩ := ih (i + 1) (c + 1) (by omega) (by omega)
        refine ⟨d + 1, by rw [h1]; omega, by simp; omega, ?_, ?_, ?_⟩
        · simp only [List.take_succ_cons, List.filter_cons, hp, if_true, List.length_cons, h3]
          omega
        · intro hlt
          have := h4 (by omega)
          simp [this]
        · intro e he
          cases e with
          | zero => simp
          | succ e =>
            have := h5 e (by omega)
            simp only [List.take_succ_cons, List.filter_cons, hp, if_true, List.length_cons]
            omega

/-- C6: evaluating `Nth(seq, n)` with `n ≥ 1` stops production at the `n`-th
element.  In each case the result of `Nth` is read off a run in which the
calls of a loop body are counted, so the count is that of the evaluation
of `Nth` itself.

* A producer `seq` of the finite sequence `s` of length `m` hands exactly
  `min(n, m)` values to the loop of `Nth`.
* Under `Map(u, f)` the body of `Map`, which applies `f`, is called by `u`
  exactly `min(n, |lu|)` times: nothing after the `n`-th element is
  produced or transformed.
* `Filter(w, p)` hands exactly `min(n, m)` values to `Nth`, where `m` is the
  number of accepted elements of `lw`; for that, `w` produces the shortest
  prefix of `lw` that holds `n` accepted elements (all of `lw` when there
  are fewer), and nothing after the element that is the `n`-th value. -/
theorem Nth_stops_production {T E : Type} [Inhabited T] (seq : Seq T) (s : List T)
    (u : Seq E) (lu : List E) (f : E → T) (w : Seq T) (lw : List T) (p : T → Bool) (n : Nat)
    (hs : Produces seq s) (hu : Produces u lu) (hw : Produces w lw) (hn : 1 ≤ n)
    (hlen : s.length < 2 ^ 64) (hlu : lu.length < 2 ^ 64) (hlw : lw.length < 2 ^ 64) :
    ((seq _ (counting (Nth.body n)) ((1, none), 0)).2 = min n s.length ∧
      (seq _ (counting (Nth.body n)) ((1, none), 0)).1 = seq _ (Nth.body n) (1, none) ∧
      Nth seq n = (match (seq _ (counting (Nth.body n)) ((1, none), 0)).1.2 with
        | some v => (v, true)
        | none => (default, false))) ∧
    ((u _ (counting (Map.body f (Nth.body n))) ((1, none), 0)).2 = min n lu.length ∧
      (u _ (counting (Map.body f (Nth.body n))) ((1, none), 0)).1
        = Map u f _ (Nth.body n) (1, none) ∧
      Nth (Map u f) n
        = (match (u _ (counting (Map.body f (Nth.body n))) ((1, none), 0)).1.2 with
          | some v => (v, true)
          | none => (default, false))) ∧
    ((Filter w p _ (counting (Nth.body n)) ((1, none), 0)).2 = min n (lw.filter p).length ∧
      Nth (Filter w p) n
        = (match (w _ (counting (Filter.body p (Nth.body n))) ((1, none), 0)).1.2 with
          | some v => (v, true)
          | none => (default, false)) ∧
      ∃ c, (w _ (counting (Filter.body p (Nth.body n))) ((1, none), 0)).2 = c ∧
        c ≤ lw.length ∧
        ((lw.take c).filter p).length = min n (lw.filter p).length ∧
        ((lw.filter p).length < n → c = lw.length) ∧
        ∀ e, e < c → ((lw.take e).filter p).length < n) := by
  have key : ∀ l : List T, l.length < 2 ^ 64 →
      (Iterator.loop (counting (Nth.body n)) l ((1, none), 0)).2 = min n l.length := by
    intro l hl
    have := Iterator.loop_Nth_count n l 1 0 (by omega) none
    rw [show (1 : Nat) % 2 ^ 64 = 1 from rfl] at this
    rw [this]
    split <;> omega
  have hcm : ∀ (st : (Nat × Option T) × Nat) (l : List E),
      Iterator.loop (counting (Map.body f (Nth.body n))) l st
        = Iterator.loop (counting (Nth.body n)) (l.map f) st := by
    intro st l
    induction l generalizing st with
    | nil => rfl
    | cons x rest ih => simp [Iterator.loop_cons, counting, Map.body, ih]
  have hfl : (lw.filter p).length < 2 ^ 64 :=
    lt_of_le_of_lt (List.length_filter_le p lw) hlw
  refine ⟨⟨?_, ?_, ?_⟩, ⟨?_, ?_, ?_⟩, ⟨?_, ?_, ?_⟩⟩
  · rw [hs]; exact key s hlen
  · rw [hs, hs]; exact Iterator.loop_counting_fst _ _ _ _
  · unfold Nth
    rw [hs, hs, Iterator.loop_counting_fst]
  · rw [hu, hcm, key _ (by simpa using hlu)]; simp
  · show _ = u _ (Map.body f (Nth.body n)) (1, none)
    rw [hu, hu]; exact Iterator.loop_counting_fst _ _ _ _
  · unfold Nth
    show (match (u _ (Map.body f (Nth.body n)) (1, none)).2 with
      | some v => (v, true)
      | none => (default, false)) = _
    rw [hu, hu, Iterator.loop_counting_fst]
  · rw [produces_Filter hw p]; exact key _ hfl
  · unfold Nth
    show (match (w _ (Filter.body p (Nth.body n)) (1, none)).2 with
      | some v => (v, true)
      | none => (default, false)) = _
    rw [hw, hw, Iterator.loop_counting_fst]
  · rw [hw]
    obtain ⟨d, h1, h2, h3, h4, h5⟩ :=
      Iterator.loop_Filter_Nth_count p n lw 1 0 none hn (by omega)
    rw [show (1 : Nat) % 2 ^ 64 = 1 from rfl] at h1
    have hk : n - 1 + 1 = n := by omega
    rw [hk] at h3 h4 h5
    exact ⟨d, by rw [h1]; omega, h2, h3, h4, h5⟩

theorem Nth_stops_production_witness :
    ((Iterator [(5 : Int), 6, 7, 8] _ (counting (Nth.body 2)) ((1, none), 0)).2 = 2 ∧
      Nth (Iterator [(5 : Int), 6, 7, 8]) 2 = (6, true)) ∧
    ((Iterator [(5 : Int), 6, 7, 8] _
        (counting (Map.body (fun v => v + 1) (Nth.body 2))) ((1, none), 0)).2 = 2 ∧
      Nth (Map (Iterator [(5 : Int), 6, 7, 8]) (fun v => v + 1)) 2 = (7, true)) ∧
    ((Filter (Iterator [(5 : Int), 6, 7, 8, 9, 10]) (fun v => v % 2 == 0) _
        (counting (Nth.body 2)) ((1, none), 0)).2 = 2 ∧
      Nth (Filter (Iterator [(5 : Int), 6, 7, 8, 9, 10]) (fun v => v % 2 == 0)) 2
        = (8, true) ∧
      (Iterator [(5 : Int), 6, 7, 8, 9, 10] _
        (counting (Filter.body (fun v => v % 2 == 0) (Nth.body 2))) ((1, none), 0)).2 = 4) :=
  ⟨⟨(Nth_stops_production (Iterator [(5 : Int), 6, 7, 8]) [5, 6, 7, 8]
        (Iterator [(5 : Int), 6, 7, 8]) [5, 6, 7, 8] (fun v => v + 1)
        (Iterator [(5 : Int), 6, 7, 8, 9, 10]) [5, 6, 7, 8, 9, 10] (fun v => v % 2 == 0) 2
        (produces_Iterator _) (produces_Iterator _) (produces_Iterator _) (by decide)
        (by decide) (by decide) (by decide)).1.1,
      (Nth_stops_production (Iterator [(5 : Int), 6, 7, 8]) [5, 6, 7, 8]
        (Iterator [(5 : Int), 6, 7, 8]) [5, 6, 7, 8] (fun v => v + 1)
        (Iterator [(5 : Int), 6, 7, 8, 9, 10]) [5, 6, 7, 8, 9, 10] (fun v => v % 2 == 0) 2
        (produces_Iterator _) (produces_Iterator _) (produces_Iterator _) (by decide)
        (by decide) (by decide) (by decide)).1.2.2⟩,
   ⟨(Nth_stops_production (Iterator [(5 : Int), 6, 7, 8]) [5, 6, 7, 8]
        (Iterator [(5 : Int), 6, 7, 8]) [5, 6, 7, 8] (fun v => v + 1)
        (Iterator [(5 : Int), 6, 7, 8, 9, 10]) [5, 6, 7, 8, 9, 10] (fun v => v % 2 == 0) 2
        (produces_Iterator _) (produces_Iterator _) (produces_Iterator _) (by decide)
        (by decide) (by decide) (by decide)).2.1.1,
      (Nth_stops_production (Iterator [(5 : Int), 6, 7, 8]) [5, 6, 7, 8]
        (Iterator [(5 : Int), 6, 7, 8]) [5, 6, 7, 8] (fun v => v + 1)
        (Iterator [(5 : Int), 6, 7, 8, 9, 10]) [5, 6, 7, 8, 9, 10] (fun v => v % 2 == 0) 2
        (produces_Iterator _) (produces_Iterator _) (produces_Iterator _) (by decide)
        (by decide) (by decide) (by decide)).2.1.2.2⟩,
   ⟨(Nth_stops_production (Iterator [(5 : Int), 6, 7, 8]) [5, 6, 7, 8]
        (Iterator [(5 : Int), 6, 7, 8]) [5, 6, 7, 8] (fun v => v + 1)
        (Iterator [(5 : Int), 6, 7, 8, 9, 10]) [5, 6, 7, 8, 9, 10] (fun v => v % 2 == 0) 2
        (produces_Iterator _) (produces_Iterator _) (produces_Iterator _) (by decide)
        (by decide) (by decide) (by decide)).2.2.1,
      (Nth_stops_production (Iterator [(5 : Int), 6, 7, 8]) [5, 6, 7, 8]
        (Iterator [(5 : Int), 6, 7, 8]) [5, 6, 7, 8] (fun v => v + 1)
        (Iterator [(5 : Int), 6, 7, 8, 9, 10]) [5, 6, 7, 8, 9, 10] (fun v => v % 2 == 0) 2
        (produces_Iterator _) (produces_Iterator _) (produces_Iterator _) (by decide)
        (by decide) (by decide) (by decide)).2.2.2.1,
      by decide⟩⟩

/-! ## `Position` -/

theorem Iterator.loop_Position_absent {T : Type} [DecidableEq T] (x : T) (l : List T)
    (idx : Int) (hx : x ∉ l) :
    (Iterator.loop (Position.body x) l (idx, none)).2 = none := by
  induction l generalizing idx with
  | nil => rfl
  | cons y rest ih =>
    have hy : ¬ y = x := fun e => hx (by simp [e])
    have hb : Position.body x y (idx, none) = ((wrapInt (idx + 1), none), true) := by
      simp only [Position.body, hy, if_false]
    rw [Iterator.loop_cons, hb]
    simp only [if_true]
    exact ih _ (fun hm => hx (List.mem_cons_of_mem _ hm))

/-- What the loop of `Position` returns from inside, started with the
counter at `i`, on a list short enough for the `int` counter not to wrap. -/
theorem Iterator.loop_Position_present {T : Type} [DecidableEq T] (x : T) (l : List T)
    (i : Nat) (hx : x ∈ l) (h : i + l.length ≤ 2 ^ 63) :
    ∃ k, ∃ hk : k < l.length, l[k] = x ∧ (∀ j (hj : j < l.length), j < k → l[j] ≠ x) ∧
      (Iterator.loop (Position.body x) l ((i : Int), none)).2 = some ((i + k : Nat) : Int) := by
  induction l generalizing i with
  | nil => simp at hx
  | cons y rest ih =>
    rw [Iterator.loop_cons]
    by_cases hy : y = x
    · have hb : Position.body x y ((i : Int), none) = (((i : Int), some (i : Int)), false) := by
        simp only [Position.body, hy, if_true]
      rw [hb]
      exact ⟨0, by simp, by simp [hy], by intro j _ hj; omega, by simp⟩
    · have hb : Position.body x y ((i : Int), none)
          = ((wrapInt ((i : Int) + 1), none), true) := by
        simp only [Position.body, hy, if_false]
      have hx1 : x ∈ rest := by
        rcases List.mem_cons.1 hx with e | e
        · exact absurd e.symm hy
        · exact e
      have hpos : 0 < rest.length := List.length_pos_of_mem hx1
      have hw : wrapInt ((i : Int) + 1) = ((i + 1 : Nat) : Int) := by
        simp only [List.length_cons] at h
        unfold wrapInt
        push_cast
        omega
      rw [hb, hw]
      simp only [if_true]
      obtain ⟨k, hk, hkx, hmin, hres⟩ := ih (i + 1) hx1 (by simp at h; omega)
      refine ⟨k + 1, by simpa using hk, by simpa using hkx, ?_, ?_⟩
      · intro j hj hjk
        cases j with
        | zero => simpa using hy
        | succ j => simpa using hmin j (by simpa using hj) (by omega)
      · have e : i + 1 + k = i + (k + 1) := by omega
        rw [hres, e]

/-- C7: for a producer of the finite sequence `s` (of length below `2^63`,
as the length of every slice is): when `x` occurs in `s`, `Position(s, x)`
returns `(i, true)` where `s[i] = x` and no element before index `i` equals
`x`; and it returns not-found `(0, false)` exactly when no element of `s`
equals `x`. -/
theorem Position_spec {T : Type} [DecidableEq T] (seq : Seq T) (s : List T) (x : T)
    (h : Produces seq s) (hlen : s.length < 2 ^ 63) :
    (x ∈ s → ∃ i, ∃ hi : i < s.length, Position seq x = ((i : Int), true) ∧ s[i] = x ∧
        ∀ j (hj : j < s.length), j < i → s[j] ≠ x) ∧
      (Position seq x = (0, false) ↔ x ∉ s) := by
  have hfound : x ∈ s → ∃ i, ∃ hi : i < s.length, Position seq x = ((i : Int), true) ∧
      s[i] = x ∧ ∀ j (hj : j < s.length), j < i → s[j] ≠ x := by
    intro hx
    obtain ⟨k, hk, hkx, hmin, hres⟩ := Iterator.loop_Position_present x s 0 hx (by omega)
    refine ⟨k, hk, ?_, hkx, hmin⟩
    unfold Position
    rw [h]
    simp only [Nat.cast_zero, Nat.zero_add] at hres
    rw [hres]
  refine ⟨hfound, ?_, ?_⟩
  · intro hp hx
    obtain ⟨i, _, hi, _⟩ := hfound hx
    rw [hi] at hp
    simp at hp
  · intro hx
    unfold Position
    rw [h, Iterator.loop_Position_absent x s 0 hx]

theorem Position_spec_witness :
    Position (Iterator [(0 : Int), 1, 2, 3, 4]) 2 = (2, true) ∧
      Position (Iterator [(0 : Int), 1, 2, 3, 4]) 7 = (0, false) :=
  ⟨by decide,
   (Position_spec (Iterator [(0 : Int), 1, 2, 3, 4]) [0, 1, 2, 3, 4] 7 (produces_Iterator _)
      (by norm_num)).2.2 (by decide)⟩

/-! ## `Max` and `Min` -/

/-- Once `init` is set, the loop of `Max` keeps an element of the values
seen so far that is above all of them. -/
theorem Iterator.loop_Max {T : Type} [LinearOrder T] (l : List T) (m : T) :
    (Iterator.loop Max.body l (m, true)).1 ∈ m :: l ∧
      m ≤ (Iterator.loop Max.body l (m, true)).1 ∧
      ∀ x ∈ l, x ≤ (Iterator.loop Max.body l (m, true)).1 := by
  induction l generalizing m with
  | nil => simp [Iterator.loop_nil]
  | cons y rest ih =>
    rw [Iterator.loop_cons]
    by_cases hy : y > m
    · have hb : Max.body y (m, true) = ((y, true), true) := by simp [Max.body, hy]
      rw [hb]
      simp only [if_true]
      obtain ⟨h1, h2, h3⟩ := ih y
      refine ⟨List.mem_cons_of_mem _ h1, le_trans (le_of_lt hy) h2, ?_⟩
      intro x hx
      rcases List.mem_cons.1 hx with e | e
      · rw [e]; exact h2
      · exact h3 x e
    · have hb : Max.body y (m, true) = ((m, true), true) := by simp [Max.body, hy]
      rw [hb]
      simp only [if_true]
      obtain ⟨h1, h2, h3⟩ := ih m
      refine ⟨?_, h2, ?_⟩
      · rcases List.mem_cons.1 h1 with e | e
        · rw [e]; exact List.mem_cons_self _ _
        · exact List.mem_cons_of_mem _ (List.mem_cons_of_mem _ e)
      · intro x hx
        rcases List.mem_cons.1 hx with e | e
        · rw [e]; exact le_trans (not_lt.1 hy) h2
        · exact h3 x e

/-- Once `init` is set, the loop of `Min` keeps an element of the values
seen so far that is below all of them. -/
theorem Iterator.loop_Min {T : Type} [LinearOrder T] (l : List T) (m : T) :
    (Iterator.loop Min.body l (m, true)).1 ∈ m :: l ∧
      (Iterator.loop Min.body l (m, true)).1 ≤ m ∧
      ∀ x ∈ l, (Iterator.loop Min.body l (m, true)).1 ≤ x := by
  induction l generalizing m with
  | nil => simp [Iterator.loop_nil]
  | cons y rest ih =>
    rw [Iterator.loop_cons]
    by_cases hy : y < m
    · have hb : Min.body y (m, true) = ((y, true), true) := by simp [Min.body, hy]
      rw [hb]
      simp only [if_true]
      obtain ⟨h1, h2, h3⟩ := ih y
      refine ⟨List.mem_cons_of_mem _ h1, le_trans h2 (le_of_lt hy), ?_⟩
      intro x hx
      rcases List.mem_cons.1 hx with e | e
      · rw [e]; exact h2
      · exact h3 x e
    · have hb : Min.body y (m, true) = ((m, true), true) := by simp [Min.body, hy]
      rw [hb]
      simp only [if_true]
      obtain ⟨h1, h2, h3⟩ := ih m
      refine ⟨?_, h2, ?_⟩
      · rcases List.mem_cons.1 h1 with e | e
        · rw [e]; exact List.mem_cons_self _ _
        · exact List.mem_cons_of_mem _ (List.mem_cons_of_mem _ e)
      · intro x hx
        rcases List.mem_cons.1 hx with e | e
        · rw [e]; exact le_trans h2 (not_lt.1 hy)
        · exact h3 x e

/-- C8: for a producer of a non-empty finite sequence `s` over a totally
ordered type, `Max(s)` is an element of `s` above every element of `s`, and
`Min(s)` is an element of `s` below every element of `s`. -/
theorem Max_Min_spec {T : Type} [LinearOrder T] [Inhabited T] (seq : Seq T) (s : List T)
    (h : Produces seq s) (hne : s ≠ []) :
    (Max seq ∈ s ∧ ∀ x ∈ s, x ≤ Max seq) ∧ (Min seq ∈ s ∧ ∀ x ∈ s, Min seq ≤ x) := by
  cases s with
  | nil => exact absurd rfl hne
  | cons y rest =>
    have hmax : Max seq = (Iterator.loop Max.body rest (y, true)).1 := by
      unfold Max
      rw [h, Iterator.loop_cons]
      simp [Max.body]
    have hmin : Min seq = (Iterator.loop Min.body rest (y, true)).1 := by
      unfold Min
      rw [h, Iterator.loop_cons]
      simp [Min.body]
    rw [hmax, hmin]
    obtain ⟨a1, a2, a3⟩ := Iterator.loop_Max rest y
    obtain ⟨b1, b2, b3⟩ := Iterator.loop_Min rest y
    refine ⟨⟨a1, ?_⟩, ⟨b1, ?_⟩⟩
    · intro x hx
      rcases List.mem_cons.1 hx with e | e
      · rw [e]; exact a2
      · exact a3 x e
    · intro x hx
      rcases List.mem_cons.1 hx with e | e
      · rw [e]; exact b2
      · exact b3 x e

theorem Max_Min_spec_witness :
    ((Max (Iterator [(2 : Int), 0, -11, 7, 9]) ∈ [(2 : Int), 0, -11, 7, 9] ∧
        ∀ x ∈ [(2 : Int), 0, -11, 7, 9], x ≤ Max (Iterator [(2 : Int), 0, -11, 7, 9])) ∧
      (Min (Iterator [(2 : Int), 0, -11, 7, 9]) ∈ [(2 : Int), 0, -11, 7, 9] ∧
        ∀ x ∈ [(2 : Int), 0, -11, 7, 9], Min (Iterator [(2 : Int), 0, -11, 7, 9]) ≤ x)) ∧
      Max (Iterator [(2 : Int), 0, -11, 7, 9]) = 9 ∧
      Min (Iterator [(2 : Int), 0, -11, 7, 9]) = -11 :=
  ⟨Max_Min_spec (Iterator [(2 : Int), 0, -11, 7, 9]) [2, 0, -11, 7, 9] (produces_Iterator _)
      (by simp),
   by decide, by decide⟩

/-! ## `Reduce` -/

theorem Iterator.loop_Reduce {T : Type} (a : T → T → T) (l : List T) (acc : T) :
    Iterator.loop (Reduce.body a) l acc = l.foldl a acc := by
  rw [Iterator.loop_of_continue _ (fun _ _ => rfl)]
  rfl

/-- For an associative operation with two-sided identity `e`, folding from
`init` is combining `init` with the fold from `e`. -/
theorem foldl_assoc_identity {T : Type} (a : T → T → T) (e : T)
    (hassoc : ∀ x y z, a (a x y) z = a x (a y z))
    (hleft : ∀ x, a e x = x) (hright : ∀ x, a x e = x) (l : List T) (init : T) :
    l.foldl a init = a init (l.foldl a e) := by
  induction l generalizing init with
  | nil => simp [hright]
  | cons x rest ih =>
    simp only [List.foldl_cons]
    rw [ih (a init x), hleft, ih x, hassoc]

/-- C9: `Reduce` is a left fold in production order.  For a producer of
`s = [x1, ..., xn]`, `Reduce(s, a, init)` is `a(...a(a(init, x1), x2)..., xn)`
(only the first of the variadic initial values is read); with no initial
value the accumulator starts from the zero value; the combiner is applied
exactly once per element; and for an empty sequence the result is the
starting accumulator. -/
theorem Reduce_spec {T : Type} [Inhabited T] (seq : Seq T) (s : List T) (a : T → T → T)
    (init : T) (more : List T) (h : Produces seq s) :
    Reduce seq a (init :: more) = s.foldl a init ∧
      Reduce seq a [] = s.foldl a default ∧
      (seq _ (counting (Reduce.body a)) (init, 0)).2 = s.length ∧
      (seq _ (counting (Reduce.body a)) (init, 0)).1 = Reduce seq a (init :: more) ∧
      (s = [] → Reduce seq a (init :: more) = init ∧ Reduce seq a [] = default) := by
  have h1 : Reduce seq a (init :: more) = s.foldl a init := by
    unfold Reduce; rw [h, Iterator.loop_Reduce]
  have h2 : Reduce seq a [] = s.foldl a default := by
    unfold Reduce; rw [h, Iterator.loop_Reduce]
  refine ⟨h1, h2, ?_, ?_, ?_⟩
  · rw [h, Iterator.loop_counting_continue _ (fun _ _ => rfl)]; simp
  · rw [h, Iterator.loop_counting_fst, h1, Iterator.loop_Reduce]
  · intro hs
    rw [h1, h2, hs]
    exact ⟨rfl, rfl⟩

theorem Reduce_spec_witness :
    Reduce (Iterator [(2 : Int), 2, 1, 5]) (fun x y => x - y) [20] = 10 ∧
      Reduce (Iterator [(2 : Int), 2, 1, 5]) (fun x y => x - y) [] = -10 ∧
      (Iterator [(2 : Int), 2, 1, 5] _ (counting (Reduce.body (fun x y => x - y)))
        (20, 0)).2 = 4 :=
  ⟨(Reduce_spec (Iterator [(2 : Int), 2, 1, 5]) [2, 2, 1, 5] (fun x y => x - y) 20 []
      (produces_Iterator _)).1,
   (Reduce_spec (Iterator [(2 : Int), 2, 1, 5]) [2, 2, 1, 5] (fun x y => x - y) 20 []
      (produces_Iterator _)).2.1,
   (Reduce_spec (Iterator [(2 : Int), 2, 1, 5]) [2, 2, 1, 5] (fun x y => x - y) 20 []
      (produces_Iterator _)).2.2.1⟩

/-- C10: for an associative combiner whose two-sided identity is the zero
value of `T`, every producer of a finite sequence and every explicit
initial value, `Reduce(seq, combine, init) = combine(init, Reduce(seq, combine))`. -/
theorem Reduce_init_law {T : Type} [Inhabited T] (seq : Seq T) (s : List T)
    (combine : T → T → T) (init : T) (h : Produces seq s)
    (hassoc : ∀ x y z, combine (combine x y) z = combine x (combine y z))
    (hleft : ∀ x, combine default x = x) (hright : ∀ x, combine x default = x) :
    Reduce seq combine [init] = combine init (Reduce seq combine []) := by
  have h1 : Reduce seq combine [init] = s.foldl combine init := by
    unfold Reduce; rw [h, Iterator.loop_Reduce]
  have h2 : Reduce seq combine [] = s.foldl combine default := by
    unfold Reduce; rw [h, Iterator.loop_Reduce]
  rw [h1, h2]
  exact foldl_assoc_identity combine default hassoc hleft hright s init

theorem Reduce_init_law_witness :
    Reduce (Iterator [(2 : Int), 2, 1, 5]) (fun x y => x + y) [7]
      = 7 + Reduce (Iterator [(2 : Int), 2, 1, 5]) (fun x y => x + y) [] :=
  Reduce_init_law (Iterator [(2 : Int), 2, 1, 5]) [2, 2, 1, 5] (fun x y => x + y) 7
    (produces_Iterator _) (fun x y z => Int.add_assoc x y z) (fun x => Int.zero_add x)
    (fun x => Int.add_zero x)

/-! ## `Map`, `Filter`, `TryMap` -/

/-- C11: for a producer of the finite sequence `s` and every function `f`,
collecting `Map(s, f)` yields `[f(v) for v of s]`, in order and one output
per input, none dropped; consequently, for every `g` with `g(f(v)) = v` for
all `v`, collecting `Map(Map(s, f), g)` reproduces `s`. -/
theorem Map_spec {T E : Type} (seq : Seq T) (s : List T) (f : T → E)
    (h : Produces seq s) :
    CollectSlice (Map seq f) = s.map f ∧
      (CollectSlice (Map seq f)).length = s.length ∧
      ∀ g : E → T, (∀ v, g (f v) = v) → CollectSlice (Map (Map seq f) g) = s := by
  have h1 : CollectSlice (Map seq f) = s.map f := collect_of_produces (produces_Map h f)
  refine ⟨h1, by rw [h1, List.length_map], ?_⟩
  intro g hinv
  rw [collect_of_produces (produces_Map (produces_Map h f) g), List.map_map]
  conv_rhs => rw [← List.map_id s]
  exact List.map_congr_left (fun v _ => hinv v)

theorem Map_spec_witness :
    CollectSlice (Map (Iterator [(10 : Int), 20, 30]) (fun _ => (0 : Int))) = [0, 0, 0] ∧
      CollectSlice (Map (Iterator [(10 : Int), 20, 30]) (fun v => v + 1)) = [11, 21, 31] ∧
      CollectSlice (Map (Map (Iterator [(10 : Int), 20, 30]) (fun v => v + 1))
        (fun v => v - 1)) = [10, 20, 30] :=
  ⟨(Map_spec (Iterator [(10 : Int), 20, 30]) [10, 20, 30] (fun _ => (0 : Int))
      (produces_Iterator _)).1,
   (Map_spec (Iterator [(10 : Int), 20, 30]) [10, 20, 30] (fun v => v + 1)
      (produces_Iterator _)).1,
   (Map_spec (Iterator [(10 : Int), 20, 30]) [10, 20, 30] (fun v => v + 1)
      (produces_Iterator _)).2.2 (fun v => v - 1) (fun v => by show v + 1 - 1 = v; omega)⟩

/-- C12: for a producer of the finite sequence `s` and a predicate `f`,
collecting `Filter(s, f)` yields the elements of `s` for which `f` holds, in
their original order; with the always-true predicate it yields `s` itself
and with the always-false predicate the empty sequence. -/
theorem Filter_spec {T : Type} (seq : Seq T) (s : List T) (f : T → Bool)
    (h : Produces seq s) :
    CollectSlice (Filter seq f) = s.filter f ∧
      CollectSlice (Filter seq (fun _ => true)) = s ∧
      CollectSlice (Filter seq (fun _ => true)) = CollectSlice seq ∧
      CollectSlice (Filter seq (fun _ => false)) = [] := by
  refine ⟨collect_of_produces (produces_Filter h f), ?_, ?_, ?_⟩
  · rw [collect_of_produces (produces_Filter h _)]; simp
  · rw [collect_of_produces (produces_Filter h _), collect_of_produces h]; simp
  · rw [collect_of_produces (produces_Filter h _)]; simp

theorem Filter_spec_witness :
    CollectSlice (Filter (Iterator [(1 : Int), 2, 3, 4, 5]) (fun v => v % 2 == 0)) = [2, 4] :=
  (Filter_spec (Iterator [(1 : Int), 2, 3, 4, 5]) [1, 2, 3, 4, 5] (fun v => v % 2 == 0)
    (produces_Iterator _)).1

theorem Iterator.loop_TryMap_record {T E Er : Type} (f : T → E × Option Er) (l : List T)
    (tr : List (E × Option Er)) :
    Iterator.loop (TryMap.body f recordPairs) l tr = tr ++ l.map f := by
  induction l generalizing tr with
  | nil => simp [Iterator.loop_nil]
  | cons x rest ih => simp [Iterator.loop_cons, TryMap.body, recordPairs, ih]

/-- C13: `TryMap` does not short-circuit on errors.  For a producer of the
finite sequence `s` and a fallible transform `f`, the pairs that
`TryMap(s, f)` hands to a consumer that never stops are exactly
`[f(v) for v of s]`: one pair per element, in order and unchanged, whatever
the errors are; in particular the elements after one on which `f` returned
a non-nil error are still transformed and forwarded. -/
theorem TryMap_spec {T E Er : Type} (seq : Seq T) (s : List T) (f : T → E × Option Er)
    (h : Produces seq s) :
    TryMap seq f _ recordPairs [] = s.map f ∧
      (TryMap seq f _ recordPairs []).length = s.length ∧
      ∀ (i : Nat) (hi : i < s.length), (f s[i]).2 ≠ none →
        ∀ (j : Nat) (hj : j < s.length), i < j →
          (TryMap seq f _ recordPairs [])[j]? = some (f s[j]) := by
  have h1 : TryMap seq f _ recordPairs [] = s.map f := by
    show seq _ (TryMap.body f recordPairs) [] = _
    rw [h, Iterator.loop_TryMap_record]; rfl
  refine ⟨h1, by rw [h1, List.length_map], ?_⟩
  intro i _ _ j hj _
  rw [h1, List.getElem?_map, List.getElem?_eq_getElem hj]; rfl

theorem TryMap_spec_witness :
    TryMap (Iterator [(-3 : Int), 10]) (fun v => if v < 0 then (0, some v) else (v, none))
      _ recordPairs [] = [((0 : Int), some (-3 : Int)), (10, none)] :=
  (TryMap_spec (Iterator [(-3 : Int), 10]) [-3, 10]
    (fun v => if v < 0 then (0, some v) else (v, none)) (produces_Iterator _)).1

/-! ## `Last` -/

theorem Iterator.loop_Last {T : Type} (l : List T) (x : T) (st : T × Bool) :
    Iterator.loop Last.body (l ++ [x]) st = (x, true) := by
  induction l generalizing st with
  | nil => simp [Iterator.loop_cons, Iterator.loop_nil, Last.body]
  | cons y rest ih => simp [Iterator.loop_cons, Last.body, ih]

/-- C17: for a producer of the finite sequence `s`, `Last(s)` returns the
final element of `s` and `true` when `s` is non-empty, and the zero value
and `false` when `s` is empty. -/
theorem Last_spec {T : Type} [Inhabited T] (seq : Seq T) (s : List T) (h : Produces seq s) :
    (∀ hne : s ≠ [], Last seq = (s.getLast hne, true)) ∧
      (s = [] → Last seq = (default, false)) := by
  constructor
  · intro hne
    unfold Last
    rw [h]
    conv_lhs => rw [← List.dropLast_append_getLast hne]
    exact Iterator.loop_Last _ _ _
  · intro hs
    unfold Last
    rw [h, hs]
    rfl

theorem Last_spec_witness :
    Last (Iterator ["kafkiansky", "iterslice", "iter"]) = ("iter", true) ∧
      Last (Iterator ([] : List String)) = ("", false) :=
  ⟨(Last_spec (Iterator ["kafkiansky", "iterslice", "iter"]) _ (produces_Iterator _)).1
      (by simp),
   (Last_spec (Iterator ([] : List String)) [] (produces_Iterator _)).2 rfl⟩

/-! ## `Min` and `Max` on the empty sequence -/

/-- C19: on a producer of the empty sequence `Min` and `Max` both return the
zero value of the element type, and that result is the very value they
return on the one-element sequence holding the zero value: the result
type is `T` alone and carries no found-flag. -/
theorem Max_Min_empty {T : Type} [LinearOrder T] [Inhabited T] (seq : Seq T)
    (h : Produces seq []) :
    Max seq = default ∧ Min seq = default ∧
      Max seq = Max (Iterator [(default : T)]) ∧
      Min seq = Min (Iterator [(default : T)]) := by
  have h1 : Max seq = default := by unfold Max; rw [h]; rfl
  have h2 : Min seq = default := by unfold Min; rw [h]; rfl
  refine ⟨h1, h2, ?_, ?_⟩
  · rw [h1]; simp [Max, Iterator, Iterator.loop_cons, Iterator.loop_nil, Max.body]
  · rw [h2]; simp [Min, Iterator, Iterator.loop_cons, Iterator.loop_nil, Min.body]

theorem Max_Min_empty_witness :
    Max (Iterator ([] : List Int)) = 0 ∧ Min (Iterator ([] : List Int)) = 0 ∧
      Max (Iterator ([] : List Int)) = Max (Iterator [(0 : Int)]) ∧
      Min (Iterator ([] : List Int)) = Min (Iterator [(0 : Int)]) :=
  Max_Min_empty (Iterator ([] : List Int)) (produces_Iterator _)

/-! ## `Between` and `Range` -/

theorem map_range_succ_int (i : Int) (n : Nat) :
    (List.range (n + 1)).map (fun k : Nat => i + (k : Int))
      = i :: (List.range n).map (fun k : Nat => (i + 1) + (k : Int)) := by
  rw [List.range_succ_eq_map, List.map_cons, List.map_map]
  refine congrArg₂ List.cons (by simp) (List.map_congr_left ?_)
  intro k _
  simp only [Function.comp_apply, Nat.succ_eq_add_one]
  push_cast
  omega

/-- With `l` and `r` in the range of `int`, every bound of at least `r - i`
iterations lets the loop of `Between` run to its end: it calls the callback
with `i, i+1, ..., r-1` until the callback answers `false`. -/
theorem Between.loop_fuel {σ : Type} (yield : Yield Int σ) (r : Int) (hr : r < 2 ^ 63)
    (fuel : Nat) (i : Int) (hi : -2 ^ 63 ≤ i) (hfuel : (r - i).toNat ≤ fuel) (st : σ) :
    Between.loop yield r fuel i st =
      Iterator.loop yield ((List.range (r - i).toNat).map (fun k : Nat => i + (k : Int))) st := by
  induction fuel generalizing i st with
  | zero =>
    have h0 : (r - i).toNat = 0 := by omega
    rw [h0]; rfl
  | succ fuel ih =>
    unfold Between.loop
    by_cases hlt : i < r
    · obtain ⟨n, hn⟩ : ∃ n : Nat, (r - i).toNat = n + 1 := ⟨(r - i).toNat - 1, by omega⟩
      have hn1 : (r - (i + 1)).toNat = n := by omega
      have hw : wrapInt (i + 1) = i + 1 := by unfold wrapInt; omega
      rw [if_pos hlt, hn, map_range_succ_int, Iterator.loop_cons, hw,
        ih (i + 1) (by omega) (by omega), hn1]
    · have h0 : (r - i).toNat = 0 := by omega
      rw [if_neg hlt, h0]; rfl

theorem produces_Between (l r : Int) (hl : -2 ^ 63 ≤ l) (hr : r < 2 ^ 63) :
    Produces (Between l r) ((List.range (r - l).toNat).map (fun k : Nat => l + (k : Int))) :=
  fun _ yield st => Between.loop_fuel yield r hr _ l hl (le_refl _) st

theorem Range.loop_range {σ : Type} (yield : Yield Int σ) (n : Nat) (v : Int) (st : σ) :
    Range.loop yield n v st =
      Iterator.loop yield ((List.range n).map (fun k : Nat => v + (k : Int))) st := by
  induction n generalizing v st with
  | zero => rfl
  | succ n ih =>
    rw [map_range_succ_int, Iterator.loop_cons, Range.loop, ih]

theorem produces_Range (n : Int) :
    Produces (Range n) ((List.range n.toNat).map (fun k : Nat => (0 : Int) + (k : Int))) :=
  fun _ yield st => Range.loop_range yield n.toNat 0 st

/-- C14: for all `int` values `l` and `r`, collecting `Between(l, r)` yields
`l, l+1, ..., r-1` in increasing order, which is `r - l` elements when
`l < r` and the empty sequence when `l ≥ r`. -/
theorem Between_spec (l r : Int) (hl : -2 ^ 63 ≤ l) (hr : r < 2 ^ 63) :
    CollectSlice (Between l r)
        = (List.range (r - l).toNat).map (fun k : Nat => l + (k : Int)) ∧
      (l < r → ((CollectSlice (Between l r)).length : Int) = r - l) ∧
      (r ≤ l → CollectSlice (Between l r) = []) := by
  have h := collect_of_produces (produces_Between l r hl hr)
  refine ⟨h, ?_, ?_⟩
  · intro hlt
    rw [h, List.length_map, List.length_range]
    omega
  · intro hle
    have h0 : (r - l).toNat = 0 := by omega
    rw [h, h0]; rfl

theorem Between_spec_witness :
    CollectSlice (Between 5 10) = [5, 6, 7, 8, 9] ∧ CollectSlice (Between 5 5) = [] ∧
      CollectSlice (Between 7 5) = [] :=
  ⟨(Between_spec 5 10 (by norm_num) (by norm_num)).1,
   (Between_spec 5 5 (by norm_num) (by norm_num)).2.2 (by norm_num),
   (Between_spec 7 5 (by norm_num) (by norm_num)).2.2 (by norm_num)⟩

/-- C15: for every `int` value `n`, collecting `Range(n)` yields
`0, 1, ..., n-1` in increasing order; `Range(n)` and `Between(0, n)` behave
alike against every consumer, so they collect to the same sequence; for
`n ≤ 0` the sequence is empty. -/
theorem Range_spec (n : Int) (hn : n < 2 ^ 63) :
    CollectSlice (Range n) = (List.range n.toNat).map (fun k : Nat => (k : Int)) ∧
      (∀ (σ : Type) (yield : Yield Int σ) (st : σ),
        Range n σ yield st = Between 0 n σ yield st) ∧
      CollectSlice (Range n) = CollectSlice (Between 0 n) ∧
      (n ≤ 0 → CollectSlice (Range n) = []) := by
  have hR := produces_Range n
  have hB := produces_Between 0 n (by norm_num) hn
  rw [Int.sub_zero] at hB
  have h := collect_of_produces hR
  refine ⟨?_, ?_, ?_, ?_⟩
  · rw [h]; simp
  · intro σ yield st; rw [hR, hB]
  · rw [h, collect_of_produces hB]
  · intro hle
    have h0 : n.toNat = 0 := by omega
    rw [h, h0]; rfl

theorem Range_spec_witness :
    CollectSlice (Range 5) = [0, 1, 2, 3, 4] ∧ CollectSlice (Range (-2)) = [] :=
  ⟨(Range_spec 5 (by norm_num)).1, (Range_spec (-2) (by norm_num)).2.2.2 (by norm_num)⟩

/-! ## `Chars` -/

theorem Chars.loop_chars {σ : Type} (yield : Yield String σ) (cs : List Char) (st : σ) :
    Chars.loop yield cs st = Iterator.loop yield (cs.map String.singleton) st := by
  induction cs generalizing st with
  | nil => rfl
  | cons c rest ih => rw [List.map_cons, Iterator.loop_cons, Chars.loop, ih]

theorem produces_Chars (s : String) : Produces (Chars s) (s.data.map String.singleton) :=
  fun _ yield st => Chars.loop_chars yield s.data st

theorem foldl_append_singletons (cs : List Char) (acc : String) :
    ((cs.map String.singleton).foldl (fun r s => r ++ s) acc).data = acc.data ++ cs := by
  induction cs generalizing acc with
  | nil => simp
  | cons c rest ih =>
    rw [List.map_cons, List.foldl_cons, ih, String.data_append]
    simp [String.singleton]

/-- C18: for every string `s`, `Chars(s)` yields one single-character string
per code point of `s`, in order: the number of yielded values is the number
of code points of `s`, each value has exactly one code point, and
concatenating the values reproduces `s`. -/
theorem Chars_spec (s : String) :
    CollectSlice (Chars s) = s.data.map String.singleton ∧
      (CollectSlice (Chars s)).length = s.length ∧
      (∀ c ∈ CollectSlice (Chars s), c.length = 1) ∧
      String.join (CollectSlice (Chars s)) = s := by
  have h := collect_of_produces (produces_Chars s)
  refine ⟨h, ?_, ?_, ?_⟩
  · rw [h, List.length_map]; rfl
  · intro c hc
    rw [h] at hc
    obtain ⟨a, _, rfl⟩ := List.mem_map.1 hc
    rfl
  · rw [h]
    apply String.ext
    unfold String.join
    rw [foldl_append_singletons]
    rfl

/-- The test of `Chars`: the four code points of an eight-byte string. -/
theorem Chars_test :
    CollectSlice (Chars "тест") = ["т", "е", "с", "т"] ∧ "тест".utf8ByteSize = 8 := by
  decide

/-! ## `Position` and `Nth` together -/

theorem Position_of_mem {T : Type} [DecidableEq T] {seq : Seq T} {s : List T} (x : T)
    (h : Produces seq s) (hlen : s.length < 2 ^ 63) (hx : x ∈ s) :
    ∃ k, ∃ hk : k < s.length, Position seq x = ((k : Int), true) ∧ s[k] = x ∧
      ∀ j (hj : j < s.length), j < k → s[j] ≠ x := by
  obtain ⟨k, hk, hkx, hmin, hres⟩ := Iterator.loop_Position_present x s 0 hx (by omega)
  refine ⟨k, hk, ?_, hkx, hmin⟩
  unfold Position
  rw [h]
  simp only [Nat.cast_zero, Nat.zero_add] at hres
  rw [hres]

theorem Position_of_not_mem {T : Type} [DecidableEq T] {seq : Seq T} {s : List T} (x : T)
    (h : Produces seq s) (hx : x ∉ s) : Position seq x = (0, false) := by
  unfold Position
  rw [h, Iterator.loop_Position_absent x s 0 hx]

/-- C20: `Position` and `Nth` are consistent.  For a producer of the finite
sequence `s` (of length below `2^63`, as the length of every slice is) and
a value `x`: if `Position(s, x)` returns `(i, true)` then `Nth(s, i+1)`
returns `(x, true)`; and if `Nth(s, n)` returns `(x, true)` then
`Position(s, x)` returns `(j, true)` with `j ≤ n-1`. -/
theorem Position_Nth_consistent {T : Type} [DecidableEq T] [Inhabited T] (seq : Seq T)
    (s : List T) (x : T) (h : Produces seq s) (hlen : s.length < 2 ^ 63) :
    (∀ i : Int, Position seq x = (i, true) → Nth seq (i + 1).toNat = (x, true)) ∧
      (∀ n : Nat, Nth seq n = (x, true) →
        ∃ j : Int, Position seq x = (j, true) ∧ j ≤ (n : Int) - 1) := by
  have hlen64 : s.length < 2 ^ 64 := by omega
  constructor
  · intro i hi
    by_cases hx : x ∈ s
    · obtain ⟨k, hk, hpos, hkx, _⟩ := Position_of_mem x h hlen hx
      rw [hpos] at hi
      have hik : (k : Int) = i := congrArg Prod.fst hi
      have hn : (i + 1).toNat = k + 1 := by omega
      rw [hn, Nth_of_produces h hlen64]
      simp [List.getElem?_eq_getElem hk, hkx]
    · rw [Position_of_not_mem x h hx] at hi
      simp at hi
  · intro n hn
    rw [Nth_of_produces h hlen64] at hn
    have hsome : (if 1 ≤ n then s[n - 1]? else none) = some x := by
      cases hc : (if 1 ≤ n then s[n - 1]? else none) with
      | none => rw [hc] at hn; simp at hn
      | some v => rw [hc] at hn; simp at hn; rw [hn]
    have h1 : 1 ≤ n := by
      by_contra hlt
      rw [if_neg hlt] at hsome
      exact Option.noConfusion hsome
    rw [if_pos h1] at hsome
    obtain ⟨hlt, hget⟩ := List.getElem?_eq_some.1 hsome
    have hx : x ∈ s := hget ▸ List.getElem_mem hlt
    obtain ⟨k, hk, hpos, _, hmin⟩ := Position_of_mem x h hlen hx
    refine ⟨(k : Int), hpos, ?_⟩
    have hle : k ≤ n - 1 := by
      by_contra hgt
      exact hmin (n - 1) hlt (by omega) hget
    omega

theorem Position_Nth_consistent_witness :
    Nth (Iterator [(7 : Int), 8, 9, 8]) ((1 : Int) + 1).toNat = (8, true) ∧
      ∃ j : Int, Position (Iterator [(7 : Int), 8, 9, 8]) 8 = (j, true) ∧
        j ≤ ((4 : Nat) : Int) - 1 :=
  ⟨(Position_Nth_consistent (Iterator [(7 : Int), 8, 9, 8]) [7, 8, 9, 8] 8
      (produces_Iterator _) (by norm_num)).1 1 (by decide),
   (Position_Nth_consistent (Iterator [(7 : Int), 8, 9, 8]) [7, 8, 9, 8] 8
      (produces_Iterator _) (by norm_num)).2 4 (by decide)⟩

end iterslice

namespace itermap

/-! ## Maps: lookup after assignment -/

theorem GoMap.get_set {K V : Type} [DecidableEq K] (m : GoMap K V) (k : K) (v : V) (k1 : K) :
    GoMap.get (GoMap.set m k v) k1 = if k = k1 then some v else GoMap.get m k1 := by
  induction m with
  | nil => simp [GoMap.set, GoMap.get]
  | cons p rest ih =>
    obtain ⟨a, b⟩ := p
    by_cases hak : a = k
    · by_cases hk : k = k1
      · simp [GoMap.set, GoMap.get, hak, hk]
      · simp [GoMap.set, GoMap.get, hak, hk]
    · by_cases ha1 : a = k1
      · have hk : ¬ k = k1 := fun e => hak (ha1.trans e.symm)
        subst ha1
        simp [GoMap.set, GoMap.get, hak, hk]
      · simp [GoMap.set, GoMap.get, hak, ha1, ih]

theorem GoMap.get_eq_none_of_not_mem {K V : Type} [DecidableEq K] (m : GoMap K V) (k : K)
    (h : k ∉ GoMap.keys m) : GoMap.get m k = none := by
  induction m with
  | nil => rfl
  | cons p rest ih =>
    obtain ⟨a, b⟩ := p
    have ha : ¬ a = k := fun e => h (by simp [GoMap.keys, e])
    have hr : k ∉ GoMap.keys rest := fun e => h (by
      simp only [GoMap.keys, List.map_cons, List.mem_cons]; exact Or.inr e)
    simp [GoMap.get, ha, ih hr]

theorem GoMap.mem_keys_of_get {K V : Type} [DecidableEq K] (m : GoMap K V) (k : K) (v : V)
    (h : GoMap.get m k = some v) : k ∈ GoMap.keys m := by
  by_contra hk
  rw [GoMap.get_eq_none_of_not_mem m k hk] at h
  exact Option.noConfusion h

theorem GoMap.get_append {K V : Type} [DecidableEq K] (a b : GoMap K V) (k : K) :
    GoMap.get (a ++ b) k = (GoMap.get a k).or (GoMap.get b k) := by
  induction a with
  | nil => simp [GoMap.get]
  | cons p rest ih =>
    obtain ⟨x, y⟩ := p
    by_cases hx : x = k
    · simp [GoMap.get, hx]
    · simp [GoMap.get, hx, ih]

theorem GoMap.get_flatten_none {K V : Type} [DecidableEq K] (L : List (GoMap K V)) (k : K)
    (h : ∀ m ∈ L, GoMap.get m k = none) : GoMap.get L.flatten k = none := by
  induction L with
  | nil => rfl
  | cons m rest ih =>
    rw [List.flatten_cons, GoMap.get_append, h m (List.mem_cons_self _ _),
      ih (fun m1 hm1 => h m1 (List.mem_cons_of_mem _ hm1))]
    rfl

theorem GoMap.get_flatten_ne_none {K V : Type} [DecidableEq K] (L : List (GoMap K V)) (k : K) :
    GoMap.get L.flatten k ≠ none ↔ ∃ m ∈ L, GoMap.get m k ≠ none := by
  induction L with
  | nil => simp [GoMap.get]
  | cons m rest ih =>
    rw [List.flatten_cons, GoMap.get_append]
    cases hm : GoMap.get m k with
    | none => simp [hm, ih]
    | some v => simp [hm]

/-- Assigning all entries of `l`, in order, to the map `acc`. -/
theorem Iterator.loop_assign {K V : Type} [DecidableEq K] (l acc : GoMap K V) :
    Iterator.loop CollectMap.body l acc = l.foldl (fun m p => GoMap.set m p.1 p.2) acc := by
  induction l generalizing acc with
  | nil => rfl
  | cons p rest ih =>
    obtain ⟨a, b⟩ := p
    simp [Iterator.loop, CollectMap.body, ih]

theorem GoMap.get_foldl_of_none {K V : Type} [DecidableEq K] (l acc : GoMap K V) (k : K)
    (h : GoMap.get l k = none) :
    GoMap.get (l.foldl (fun m p => GoMap.set m p.1 p.2) acc) k = GoMap.get acc k := by
  induction l generalizing acc with
  | nil => rfl
  | cons p rest ih =>
    obtain ⟨a, b⟩ := p
    by_cases ha : a = k
    · simp [GoMap.get, ha] at h
    · have hr : GoMap.get rest k = none := by simpa [GoMap.get, ha] using h
      rw [List.foldl_cons, ih _ hr, GoMap.get_set, if_neg ha]

theorem GoMap.get_foldl_of_some {K V : Type} [DecidableEq K] (l acc : GoMap K V) (k : K)
    (v : V) (hnd : (GoMap.keys l).Nodup) (h : GoMap.get l k = some v) :
    GoMap.get (l.foldl (fun m p => GoMap.set m p.1 p.2) acc) k = some v := by
  induction l generalizing acc with
  | nil => simp [GoMap.get] at h
  | cons p rest ih =>
    obtain ⟨a, b⟩ := p
    have hnd1 : a ∉ GoMap.keys rest ∧ (GoMap.keys rest).Nodup := by
      simpa [GoMap.keys] using hnd
    by_cases ha : a = k
    · have hb : b = v := by simpa [GoMap.get, ha] using h
      have hr : GoMap.get rest k = none :=
        GoMap.get_eq_none_of_not_mem rest k (ha ▸ hnd1.1)
      rw [List.foldl_cons, GoMap.get_foldl_of_none _ _ _ hr, GoMap.get_set, if_pos ha, hb]
    · have hr : GoMap.get rest k = some v := by simpa [GoMap.get, ha] using h
      rw [List.foldl_cons, ih _ hnd1.2 hr]

theorem GoMap.get_foldl_ne_none {K V : Type} [DecidableEq K] (l acc : GoMap K V) (k : K) :
    GoMap.get (l.foldl (fun m p => GoMap.set m p.1 p.2) acc) k ≠ none ↔
      GoMap.get acc k ≠ none ∨ GoMap.get l k ≠ none := by
  induction l generalizing acc with
  | nil => simp [GoMap.get]
  | cons p rest ih =>
    obtain ⟨a, b⟩ := p
    rw [List.foldl_cons, ih, GoMap.get_set]
    by_cases ha : a = k
    · simp [GoMap.get, ha]
    · simp [GoMap.get, ha]

/-! ## `Join` of map-backed producers -/

theorem Iterator.loop_append_pairs {K V σ : Type} (yield : Yield2 K V σ) (l₁ l₂ : GoMap K V)
    (st : σ) :
    Iterator.loop yield (l₁ ++ l₂) st =
      if (Iterator.loop (Join.body yield) l₁ (st, false)).2
      then (Iterator.loop (Join.body yield) l₁ (st, false)).1
      else Iterator.loop yield l₂ (Iterator.loop (Join.body yield) l₁ (st, false)).1 := by
  induction l₁ generalizing st with
  | nil => simp [Iterator.loop]
  | cons p rest ih =>
    obtain ⟨a, b⟩ := p
    cases hy : (yield a b st).2
    · simp [Iterator.loop, Join.body, hy]
    · simp [Iterator.loop, Join.body, hy, ih]

theorem Join.loop_map_Iterator {K V σ : Type} (yield : Yield2 K V σ) (ms : List (GoMap K V))
    (st : σ) :
    Join.loop yield (ms.map Iterator) st = Iterator.loop yield ms.flatten st := by
  induction ms generalizing st with
  | nil => rfl
  | cons m rest ih =>
    rw [List.flatten_cons, Iterator.loop_append_pairs, List.map_cons, Join.loop]
    show (if (Iterator.loop (Join.body yield) m (st, false)).2 then _ else _) = _
    split
    · rfl
    · exact ih _

theorem collectMap_Join_flatten {K V : Type} [DecidableEq K] (ms : List (GoMap K V)) :
    CollectMap (Join (ms.map Iterator))
      = ms.flatten.foldl (fun m p => GoMap.set m p.1 p.2) [] := by
  show Join.loop CollectMap.body (ms.map Iterator) [] = _
  rw [Join.loop_map_Iterator, Iterator.loop_assign]

/-- C16: for every list of (well-formed) maps `m1..mN`, the map
`CollectMap(Join(Iterator(m1), ..., Iterator(mN)))` has as keys the union
of the key sets, and each key `k` maps to the value it has in the last `mi`
that contains `k`; with pairwise disjoint key sets every entry of every
`mi` is an entry of the result. -/
theorem CollectMap_Join {K V : Type} [DecidableEq K] (ms : List (GoMap K V))
    (hwf : ∀ m ∈ ms, (GoMap.keys m).Nodup) :
    (∀ k, GoMap.get (CollectMap (Join (ms.map Iterator))) k ≠ none ↔
        ∃ m ∈ ms, GoMap.get m k ≠ none) ∧
      (∀ (before : List (GoMap K V)) (m : GoMap K V) (after : List (GoMap K V)) (k : K)
        (v : V), ms = before ++ m :: after → GoMap.get m k = some v →
        (∀ m1 ∈ after, GoMap.get m1 k = none) →
        GoMap.get (CollectMap (Join (ms.map Iterator))) k = some v) ∧
      ((ms.map GoMap.keys).Pairwise List.Disjoint →
        ∀ m ∈ ms, ∀ (k : K) (v : V), GoMap.get m k = some v →
          GoMap.get (CollectMap (Join (ms.map Iterator))) k = some v) := by
  have hlast : ∀ (before : List (GoMap K V)) (m : GoMap K V) (after : List (GoMap K V))
      (k : K) (v : V), ms = before ++ m :: after → GoMap.get m k = some v →
      (∀ m1 ∈ after, GoMap.get m1 k = none) →
      GoMap.get (CollectMap (Join (ms.map Iterator))) k = some v := by
    intro before m after k v hms hm hafter
    have hnd : (GoMap.keys m).Nodup := hwf m (by rw [hms]; simp)
    rw [collectMap_Join_flatten, hms, List.flatten_append, List.flatten_cons, List.foldl_append,
      List.foldl_append, GoMap.get_foldl_of_none _ _ _ (GoMap.get_flatten_none after k hafter)]
    exact GoMap.get_foldl_of_some _ _ _ _ hnd hm
  refine ⟨?_, hlast, ?_⟩
  · intro k
    rw [collectMap_Join_flatten, GoMap.get_foldl_ne_none, GoMap.get_flatten_ne_none]
    simp [GoMap.get]
  · intro hdis m hm k v hget
    obtain ⟨before, after, hms⟩ := List.append_of_mem hm
    refine hlast before m after k v hms hget ?_
    intro m1 hm1
    apply GoMap.get_eq_none_of_not_mem
    rw [hms, List.map_append, List.map_cons, List.pairwise_append, List.pairwise_cons] at hdis
    have hd : List.Disjoint (GoMap.keys m) (GoMap.keys m1) :=
      hdis.2.1.1 _ (List.mem_map_of_mem _ hm1)
    exact fun hk => hd (GoMap.mem_keys_of_get m k v hget) hk

theorem CollectMap_Join_witness :
    GoMap.get (CollectMap (Join ([[("itertools", (2 : Int))], [("kafkiansky", 1)]].map
        Iterator))) "itertools" = some 2 ∧
      GoMap.get (CollectMap (Join ([[("itertools", (2 : Int))], [("kafkiansky", 1)]].map
        Iterator))) "kafkiansky" = some 1 ∧
      GoMap.get (CollectMap (Join ([[("a", (1 : Int)), ("b", 2)], [("b", 3)]].map
        Iterator))) "b" = some 3 :=
  ⟨(CollectMap_Join [[("itertools", (2 : Int))], [("kafkiansky", 1)]]
      (by simp [GoMap.keys])).2.1 [] _ [[("kafkiansky", 1)]] "itertools" 2 rfl
      (by decide) (by decide),
   (CollectMap_Join [[("itertools", (2 : Int))], [("kafkiansky", 1)]]
      (by simp [GoMap.keys])).2.1 [[("itertools", 2)]] _ [] "kafkiansky" 1 rfl
      (by decide) (by simp),
   (CollectMap_Join [[("a", (1 : Int)), ("b", 2)], [("b", 3)]]
      (by simp [GoMap.keys])).2.1 [[("a", 1), ("b", 2)]] _ [] "b" 3 rfl
      (by decide) (by simp)⟩

end itermap

end itertools
